import Mathlib

/-!
Verification of the loconotion crawl-and-transform engine
(`loconotion/modules/notionparser.py`), shallowly embedded in Lean 4.

Conventions of the embedding:
* Python strings are Lean `String`s; the heavy lifting happens on their
  `List Char` data.  Only ASCII behaviour of `str.lower` is modelled, and
  percent-decoding inside `urllib.parse.parse_qs` is not modelled (all
  concrete inputs used below are plain ASCII without percent-escapes).
* Stateful methods of the `Parser` class become explicit state-passing
  functions: the dist folder is a list of file names, the visited-pages
  dict is a list of URLs in insertion order, network and file system are
  environment records of pure functions.
* Machine-level SHA-1 is replaced by an injective hex encoding
  (`sha1hex` below): like the real digest it is a deterministic function
  of the hashed string whose output uses only hex digits (in particular
  it contains no dot, slash or question mark); unlike the real digest it
  is provably injective, which is the working assumption (absence of
  SHA-1 collisions) behind the keying scheme of the cache.
-/

namespace Loconotion

/-! ## Characters and low-level string helpers -/

/-- ASCII lowercasing of one character, as Python `str.lower` does for
ASCII input. -/
def lowerChar (c : Char) : Char :=
  if 65 ≤ c.toNat ∧ c.toNat ≤ 90 then Char.ofNat (c.toNat + 32) else c

/-- Python `str.lower` (ASCII fragment). -/
def lowerChars (l : List Char) : List Char := l.map lowerChar

/-- Model of Python startswith: `listStarts pat l` is Python `l.startswith(pat)` on character lists. -/
def listStarts : List Char → List Char → Bool
  | [], _ => true
  | _ :: _, [] => false
  | a :: as, b :: bs => a = b && listStarts as bs

/-- Model of Python containment: `listHas pat l` is Python `pat in l` (contiguous substring test). -/
def listHas (pat : List Char) : List Char → Bool
  | [] => listStarts pat []
  | c :: rest => listStarts pat (c :: rest) || listHas pat rest

/-- Python `sep.join`-style interleaving with a single separator char. -/
def joinChar (sep : Char) : List (List Char) → List Char
  | [] => []
  | [g] => g
  | g :: g2 :: gs => g ++ sep :: joinChar sep (g2 :: gs)

/-- Python `s.split(sep)` for a one-character separator: always returns
at least one (possibly empty) group. -/
def splitChar (sep : Char) : List Char → List (List Char)
  | [] => [[]]
  | c :: rest =>
    match splitChar sep rest with
    | [] => [[]]
    | g :: gs => if c = sep then [] :: g :: gs else (c :: g) :: gs

/-- Python `s.strip(c)` for one strip character. -/
def stripChar (c : Char) (l : List Char) : List Char :=
  ((l.dropWhile (· = c)).reverse.dropWhile (· = c)).reverse

/-- Split at the first occurrence: `splitAtFirst c l = some (before, after)` when `c` occurs in `l`
(Python `l.split(c, 1)` for a present separator). -/
def splitAtFirst (c : Char) : List Char → Option (List Char × List Char)
  | [] => none
  | a :: as =>
    if a = c then some ([], as)
    else match splitAtFirst c as with
      | some (b, r) => some (a :: b, r)
      | none => none

/-- Take characters until one of `delims` is hit, returning the taken
part and the remainder (delimiter kept in the remainder). -/
def takeUntilAny (delims : List Char) : List Char → List Char × List Char
  | [] => ([], [])
  | c :: rest =>
    if delims.contains c then ([], c :: rest)
    else
      let (a, b) := takeUntilAny delims rest
      (c :: a, b)

/-! ## String-level wrappers -/

/-- Python `needle in hay` on strings. -/
def pyIn (needle hay : String) : Bool := listHas needle.data hay.data

/-- Python `str.lower` on strings (ASCII fragment). -/
def pyLower (s : String) : String := ⟨lowerChars s.data⟩

/-- Python `hay.startswith(needle)`. -/
def pyStarts (needle hay : String) : Bool := listStarts needle.data hay.data

/-! ## `urllib.parse.urlparse` (the fields the parser consumes)

Modelled after CPython `urlsplit`: scheme split at the first `:` when the
prefix is a well-formed scheme (first char a letter, rest letters, digits
or `+ - .`), then netloc after a leading `//` up to `/ ? #`, then the
fragment after the first `#`, then the query after the first `?`.  The
`;parameters` field of `urlparse` is not modelled (never present in the
URLs this program handles). -/

structure UrlParts where
  scheme : String
  netloc : String
  path : String
  query : String
  fragment : String
deriving DecidableEq

/-- Is `c` allowed inside a URL scheme? -/
def schemeChar (c : Char) : Bool :=
  c.isAlpha || c.isDigit || c = '+' || c = '-' || c = '.'

/-- Split off a leading scheme, returning `(scheme, rest)`. -/
def splitScheme (l : List Char) : List Char × List Char :=
  match splitAtFirst ':' l with
  | some (before, after) =>
    match before with
    | [] => ([], l)
    | c :: cs =>
      if c.isAlpha && (c :: cs).all schemeChar then (lowerChars (c :: cs), after)
      else ([], l)
  | none => ([], l)

/-- The model of `urllib.parse.urlparse`. -/
def pyUrlsplit (url : String) : UrlParts :=
  let (scheme, rest) := splitScheme url.data
  let (netloc, rest) :=
    if listStarts ['/', '/'] rest then takeUntilAny ['/', '?', '#'] (rest.drop 2)
    else ([], rest)
  let (rest, fragment) :=
    match splitAtFirst '#' rest with
    | some (r, f) => (r, f)
    | none => (rest, [])
  let (rest, query) :=
    match splitAtFirst '?' rest with
    | some (r, q) => (r, q)
    | none => (rest, [])
  ⟨⟨scheme⟩, ⟨netloc⟩, ⟨rest⟩, ⟨query⟩, ⟨fragment⟩⟩

/-! ## `urllib.parse.parse_qs` (lookup of one key)

`parse_qs` splits the query at `&`, keeps the parts that contain `=`
with a non-empty value, and groups values by key (percent-decoding not
modelled). -/

/-- The `(key, value)` pairs of a query string, in order. -/
def parseQsl (q : List Char) : List (List Char × List Char) :=
  (splitChar '&' q).filterMap fun part =>
    match splitAtFirst '=' part with
    | some (n, v) => if v.isEmpty then none else some (n, v)
    | none => none

/-- All values bound to `key` by `parse_qs` (empty list when the key is
absent, which is exactly the Python `key in query_params.keys()` test
failing). -/
def parseQsGet (q : List Char) (key : List Char) : List (List Char) :=
  (parseQsl q).filterMap fun nv => if nv.1 = key then some nv.2 else none

/-- Interleave a multi-character separator. -/
def joinChars (sep : List Char) : List (List Char) → List Char
  | [] => []
  | [g] => g
  | g :: g2 :: gs => g ++ sep ++ joinChars sep (g2 :: gs)

/-- Python `str(list_of_strings)`, as interpolated by the f-string on
the `width` parameter: `['100']`-style rendering.  Faithful for values
without quotes or backslashes, which is the only kind that occurs. -/
def pyListRepr (vals : List (List Char)) : List Char :=
  '[' :: (joinChars [',', ' '] (vals.map fun v => '\x27' :: (v ++ ['\x27']))) ++ [']']

/-! ## The digest standing in for SHA-1 (see the header comment) -/

/-- One hex digit. -/
def hexNibble (n : Nat) : Char := Nat.digitChar (n % 16)

/-- Six hex digits encoding `n < 16^6` (every Unicode scalar value
fits: `Char.toNat < 1114112 < 16777216`). -/
def hexWord (n : Nat) : List Char :=
  [hexNibble (n / 1048576), hexNibble (n / 65536), hexNibble (n / 4096),
   hexNibble (n / 256), hexNibble (n / 16), hexNibble n]

/-- The model of `hashlib.sha1(str.encode(s)).hexdigest()`: a
deterministic, injective, all-hex-digit digest of `s`. -/
def sha1hex (s : String) : String := ⟨s.data.flatMap fun c => hexWord c.toNat⟩

/-! ## `pathlib` fragments: `suffix`, `stem`, `with_suffix`, `name` -/

/-- Split a file name into stem and suffix following `pathlib`: the suffix is
the part of the name from its last dot on, provided that dot is neither
the first nor the last character; otherwise the suffix is empty.
(Implemented by locating the first dot of the reversed name.) -/
def pySfxSplit (l : List Char) : List Char × List Char :=
  match splitAtFirst '.' l.reverse with
  | some (rsuf, rstem) =>
    if rstem.isEmpty || rsuf.isEmpty then (l, [])
    else (rstem.reverse, '.' :: rsuf.reverse)
  | none => (l, [])

/-- Model of `pathlib.PurePath(name).suffix`. -/
def pathSfx (s : String) : String := ⟨(pySfxSplit s.data).2⟩

/-- Model of `pathlib.PurePath(name).stem`. -/
def pathStm (s : String) : String := ⟨(pySfxSplit s.data).1⟩

/-- Model of `pathlib.PurePath(name).with_suffix(ext)` for a valid `ext`
(either empty or starting with a dot). -/
def withSfx (s ext : String) : String := pathStm s ++ ext

/-- Model of `pathlib.PurePath(p).name`: the component after the last slash. -/
def lastComponent (s : String) : String :=
  ⟨((splitChar '/' s.data).getLastD [])⟩

/-! ## Configuration values (`Parser.config`)

Python configuration tables are dicts of heterogeneous values; the
parser reads strings, booleans and nested tables from them.  Dicts are
modelled as association lists with unique keys, looked up first-match
(`del d[k]` becomes removal of the key, `{**a, **b}` becomes
`dictMerge a b`, both faithful to the CPython insertion-order
semantics for unique-key dicts). -/

inductive CVal where
  | s (v : String)
  | b (v : Bool)
  | tbl (kvs : List (String × CVal))

/-- Python truthiness for the configuration values above. -/
def cvTruthy : CVal → Bool
  | .s v => v ≠ ""
  | .b v => v
  | .tbl kvs => !kvs.isEmpty

/-- Python `{**a, **b}`: keys of `a` in order with values overridden by
`b`, then the keys of `b` not present in `a`. -/
def dictMerge (a b : List (String × CVal)) : List (String × CVal) :=
  a.map (fun kv => (kv.1, (b.lookup kv.1).getD kv.2))
    ++ b.filter (fun kv => (a.lookup kv.1).isNone)

/-- The relevant top-level keys of `Parser.config`: the global `site`
table and the per-page `pages` tables. -/
structure SiteCfg where
  site : List (String × CVal)
  pages : List (String × CVal)

/-- The matching test of `get_page_config` line 102:
`key.lower() in token` — the key is lowercased, the token is not. -/
def keyMatch (key token : String) : Bool := listHas (lowerChars key.data) token.data

/-- Lines 92–97 of `get_page_config`: a truthy `slug` entry of the
`site` table is deleted (and logged as an error). -/
def siteEffective (site : List (String × CVal)) : List (String × CVal) :=
  match site.lookup ("slug") with
  | some v => if cvTruthy v then site.filter (fun kv => kv.1 ≠ "slug") else site
  | none => site

/-- Model of `Parser.get_page_config` (lines 87–125): zero matching page tables
returns the (slug-stripped) site table; exactly one match that is a dict
is merged over it; several matches, or a non-dict match, fall back to
the site table. -/
def getPageConfig (cfg : SiteCfg) (token : String) : List (String × CVal) :=
  let siteC := siteEffective cfg.site
  match (cfg.pages.filter (fun kv => keyMatch kv.1 token)).map (fun kv => kv.2) with
  | [] => siteC
  | [v] =>
    match v with
    | .tbl pt => dictMerge siteC pt
    | _ => siteC
  | _ => siteC

/-- The slug-derivation fallback of `get_page_slug` (lines 134–144):
note the `elif "?" in path` branch is kept although `urlparse` never
leaves a `?` inside `.path`. -/
def defaultSlug (url : String) (extension : Bool) : String :=
  let path0 := stripChar '/' (pyUrlsplit url).path.data
  let path :=
    if path0.contains '-' && (splitChar '-' path0).length > 1 then
      lowerChars (joinChar '-' ((splitChar '-' path0).dropLast))
    else if path0.contains '?' then
      lowerChars ((splitChar '?' path0).headD [])
    else path0
  ⟨path⟩ ++ (if extension then ".html" else "")

/-- Model of `Parser.get_page_slug` (lines 127–144).  A truthy custom `slug` in
the page config wins (stripped of slashes); config slugs are strings in
practice (a truthy non-string would raise in Python, which is not
modelled). -/
def getPageSlug (cfg : SiteCfg) (url : String) (extension : Bool) : String :=
  match (getPageConfig cfg url).lookup ("slug") with
  | some (.s v) =>
    if v ≠ "" then (⟨stripChar '/' v.data⟩ : String) ++ (if extension then ".html" else "")
    else defaultSlug url extension
  | _ => defaultSlug url extension

/-! ## The asset cache (`Parser.cache_file`, lines 146–212)

State: the list of file names present in the dist folder, in creation
order (`glob.glob` is modelled as a filter over that list).  The network
and the local file system are an environment of pure functions; the
`downloads` / `copies` counters record the I/O the call performed. -/

/-- What the core reads from a `requests` response. -/
structure FetchResponse where
  contentType : Option String

/-- External collaborators of the cache: the network (`none` models a
raised exception), the local file system, and `mimetypes.guess_extension`. -/
structure CacheEnv where
  fetch : String → Option FetchResponse
  isLocalFile : String → Bool
  guessExtension : String → Option String

/-- What `cache_file` evaluates to: a dist-relative path, the original
reference echoed back (download error), or the implicit Python `None`. -/
inductive CacheResult where
  | relPath (p : String)
  | original (u : String)
  | nothing
deriving DecidableEq

/-- Result, post-state and I/O counts of one `cache_file` call. -/
structure CacheOutcome where
  result : CacheResult
  files : List String
  downloads : Nat
  copies : Nat
deriving DecidableEq

/-- Lines 152–160: the string whose SHA-1 becomes the implicit cache
key — netloc plus path, with the rendered `width` value list
appended when a `width` parameter is present. -/
def cacheKeySource (url : String) : String :=
  let p := pyUrlsplit url
  let ws := parseQsGet p.query.data ("width".data)
  if !ws.isEmpty then p.netloc ++ p.path ++ "?width=" ++ (⟨pyListRepr ws⟩ : String)
  else p.netloc ++ p.path

/-- The file name `cache_file` works with: the explicit `filename`
argument if given, else the hex digest of `cacheKeySource`. -/
def cacheFileName (url : String) (filename : Option String) : String :=
  match filename with
  | some f => f
  | none => sha1hex (cacheKeySource url)

/-- The glob pattern `destination.with_suffix(".*")` matches a file
name iff it extends the stem of the destination with a dot. -/
def globStemHit (destName fileName : String) : Bool :=
  listStarts ((pySfxSplit destName.data).1 ++ ['.']) fileName.data

/-- Model of `re.split("%3f", ext, flags=re.IGNORECASE)[0]`: the part of `ext`
before the first case-insensitive occurrence of `%3f`. -/
def takeBeforeP3f : List Char → List Char
  | '%' :: '3' :: c :: rest =>
    if c = 'f' ∨ c = 'F' then [] else '%' :: takeBeforeP3f ('3' :: c :: rest)
  | c :: rest => c :: takeBeforeP3f rest
  | [] => []

/-- Lines 180–191: infer the extension of a downloaded file — URL path
suffix first (cut at a percent-encoded `?` if one is embedded in it),
else the content type of the response. -/
def inferExtension (env : CacheEnv) (url : String) (resp : FetchResponse) : String :=
  let ext0 := pathSfx (lastComponent (pyUrlsplit url).path)
  if ext0 = "" then
    match resp.contentType with
    | some ct => (env.guessExtension ct).getD ""
    | none => ""
  else if listHas ['%', '3', 'f'] (lowerChars ext0.data) then
    ⟨takeBeforeP3f ext0.data⟩
  else ext0

/-- Lines 177–191: the name the downloaded file is written under — the
destination keeps an explicit extension, otherwise the inferred one is
attached. -/
def downloadDest (env : CacheEnv) (url : String) (name : String)
    (resp : FetchResponse) : String :=
  if pathSfx name = "" then
    let ext := inferExtension env url resp
    if ext = "" then name else withSfx name ext
  else name

/-- Model of `Parser.cache_file` itself. -/
def cacheFile (env : CacheEnv) (files : List String) (url : String)
    (filename : Option String) : CacheOutcome :=
  let name := cacheFileName url filename
  let matching := files.filter (globStemHit name)
  if matching.isEmpty then
    if pyIn ("http") (pyUrlsplit url).scheme then
      match env.fetch url with
      | none => ⟨.original url, files, 1, 0⟩
      | some resp =>
        let dest := downloadDest env url name resp
        ⟨.relPath dest, files ++ [dest], 1, 0⟩
    else if env.isLocalFile url then
      let dest := withSfx name (pathSfx (lastComponent url))
      ⟨.relPath dest, files ++ [dest], 0, 1⟩
    else ⟨.nothing, files, 0, 0⟩
  else ⟨.relPath (matching.headD ""), files, 0, 0⟩

/-! ## Link discovery (`Parser.find_subpages`, lines 678–731)

A rendered page is abstracted to its anchors: each anchor carries its
`href`, its class list, and whether it sits below a
`div.notion-scroller` ancestor (`a.find_parents("div",
class_="notion-scroller")` being non-empty).  The pass threads the
per-page discovery batch `subpages` left to right; `processed` is the
visited registry `self.processed_pages.keys()`.  Style neutralisation
of stripped anchors (`cursor: default`) is not modelled. -/

structure Anchor where
  href : String
  classes : List String
  inScroller : Bool
deriving DecidableEq

/-- What an anchor looks like after the pass. -/
inductive AnchorOut where
  /-- Still an `<a>` with the rewritten `href`. -/
  | link (href : String) (classes : List String)
  /-- `href` deleted and tag renamed to `span` (lines 722–724). -/
  | stripped (classes : List String)
  /-- Not under the source domain: left alone. -/
  | untouched (href : String) (classes : List String)
deriving DecidableEq

/-- The read-only context of one `find_subpages` run. -/
structure SubpageCtx where
  cfg : SiteCfg
  hrefDomain : String
  indexUrl : String
  extensionInLinks : Bool
  parseLinks : Bool
  processed : List String

/-- Lines 684–688: a root-relative href is resolved against the domain,
keeping only the last slash-separated segment. -/
def resolveHref (domain href : String) : String :=
  if pyStarts ("/") href then
    domain ++ "/" ++ (⟨(splitChar '/' href.data).getLastD []⟩ : String)
  else href

/-- The body of the `for a in soup.find_all("a", href=True)` loop for
one anchor, returning the transformed anchor and the updated discovery
batch. -/
def processAnchor (ctx : SubpageCtx) (subpages : List String) (a : Anchor) :
    AnchorOut × List String :=
  let sub := resolveHref ctx.hrefDomain a.href
  if pyStarts ctx.hrefDomain sub then
    if ctx.parseLinks || !a.inScroller then
      if pyIn ("#") sub then
        let tokens := splitChar '#' sub.data
        let target : String := ⟨tokens.headD []⟩
        let newHref : String := "#" ++ (⟨tokens.getLastD []⟩ : String)
        let classes := a.classes ++ ["loconotion-anchor-link"]
        if ctx.processed.contains target || subpages.contains target then
          (.link newHref classes, subpages)
        else (.link newHref classes, subpages ++ [target])
      else
        let newHref :=
          if sub ≠ ctx.indexUrl then getPageSlug ctx.cfg sub ctx.extensionInLinks
          else if ctx.extensionInLinks then "index.html" else ""
        (.link newHref a.classes, subpages ++ [sub])
    else (.stripped a.classes, subpages)
  else (.untouched a.href a.classes, subpages)

/-- Model of `Parser.find_subpages`: fold `processAnchor` over the anchors of the
page, returning the rewritten anchors and the discovery batch. -/
def findSubpages (ctx : SubpageCtx) (anchors : List Anchor) :
    List AnchorOut × List String :=
  anchors.foldl
    (fun acc a =>
      let (out, subs) := processAnchor ctx acc.2 a
      (acc.1 ++ [out], subs))
    ([], [])

/-! ## The crawl orchestrator (`run` / `parse_page` / `parse_subpages`)

`parse_page url` renders and transforms the page, appends `url` to the
visited registry (`export_parsed_page`, line 746), then recurses into
every discovered subpage not yet in the registry (`parse_subpages`,
lines 748–755).  The page graph is abstracted to
`links : String → List String`, the per-URL discovery batch (the DOM
is deterministic, and the registry-dependent filtering of anchor-link
targets inside `find_subpages` only removes entries that
`parse_subpages` would skip anyway).  The registry is the list of
exported URLs in insertion order.  Recursion depth is bounded by a
fuel parameter; `none` means the fuel ran out, and the theorems below
show that `|universe|` fuel always suffices — which is the
termination argument.  `single_page` mode is off. -/

/-- The loop of `parse_subpages`, parameterised by the continuation
`parseP` (which will be `parsePage` at one less fuel). -/
def parseSubsLoop (parseP : String → List String → Option (List String)) :
    List String → List String → Option (List String)
  | [], processed => some processed
  | s :: rest, processed =>
    if processed.contains s then parseSubsLoop parseP rest processed
    else
      match parseP s processed with
      | none => none
      | some p => parseSubsLoop parseP rest p

/-- Model of `Parser.parse_page` (driven from `run` with an empty registry). -/
def parsePage (links : String → List String) :
    Nat → String → List String → Option (List String)
  | 0, _, _ => none
  | fuel + 1, url, processed =>
    parseSubsLoop (fun s p => parsePage links fuel s p) (links url) (processed ++ [url])

/-- Reachability in the abstract page graph. -/
inductive Reach (links : String → List String) : String → String → Prop where
  | refl (u : String) : Reach links u u
  | step {u v w : String} : v ∈ links u → Reach links v w → Reach links u w

/-! ## Toggle blocks (`Parser.open_toggle_blocks`, lines 316–362)

The browser session is abstracted to the list of toggle-block elements
the page exposes (element identity as strings) and an `isOpen`
predicate (the arrow-rotation test of line 335).  CPython evaluates the
`exclude=[]` default once, at function definition time, and
`opened_toggles = exclude` aliases that single list object, which
`.append` then mutates in place; the state `ToggleDefault` below is
exactly that shared list object.  The toggles of a page are modelled as the
fixpoint list the rescans eventually see (nested discovery reruns the
pass with the same accumulator object, so one pass over the full list
is observationally equal). -/

structure TogglePage where
  toggles : List String
  isOpen : String → Bool

/-- One pass of the `for toggle_block in toggle_blocks` loop: a block
not in the accumulator and not already open is clicked and appended. -/
def openTogglesPass (page : TogglePage) (opened : List String) :
    List String → List String
  | [] => opened
  | tb :: rest =>
    if opened.contains tb then openTogglesPass page opened rest
    else if page.isOpen tb then openTogglesPass page opened rest
    else openTogglesPass page (opened ++ [tb]) rest

/-- The list object bound to the `exclude=[]` default argument. -/
structure ToggleDefault where
  acc : List String

/-- Model of `open_toggle_blocks(timeout)` called, as `parse_page` does, without
an explicit `exclude`: the default list object is read and mutated. -/
def openTogglesDefaultCall (d : ToggleDefault) (page : TogglePage) : ToggleDefault :=
  ⟨openTogglesPass page d.acc page.toggles⟩

/-- A run over successive pages, each calling with the default argument. -/
def runToggleCalls (d : ToggleDefault) (pages : List TogglePage) : ToggleDefault :=
  pages.foldl openTogglesDefaultCall d

/-! ## Crawl invariants (used by the cycle-safety development)

`PageGood links univ fuel` says: with `fuel` at least the number of
still-unvisited pages, `parse_page` completes and its final registry
extends the old one by `url` plus pages reachable from `url`, stays
duplicate-free, and is link-closed outside the old registry.
`SubsGood` is the analogous statement for the `parse_subpages` loop. -/

def PageGood (links : String → List String) (univ : List String) (fuel : Nat) : Prop :=
  ∀ url processed, url ∈ univ → url ∉ processed → processed.Nodup →
    processed ⊆ univ → univ.length ≤ fuel + processed.length →
    ∃ L, parsePage links fuel url processed = some L ∧
      (∃ t, L = processed ++ url :: t) ∧ L.Nodup ∧ L ⊆ univ ∧
      (∀ p ∈ L, p ∉ processed → ∀ q ∈ links p, q ∈ L) ∧
      (∀ p ∈ L, p ∈ processed ∨ Reach links url p)

def SubsGood (links : String → List String) (univ : List String) (fuel : Nat) : Prop :=
  ∀ subs processed, subs ⊆ univ → processed.Nodup →
    processed ⊆ univ → univ.length ≤ fuel + processed.length →
    ∃ L, parseSubsLoop (fun s p => parsePage links fuel s p) subs processed = some L ∧
      (∃ t, L = processed ++ t) ∧ L.Nodup ∧ L ⊆ univ ∧
      (∀ s ∈ subs, s ∈ L) ∧
      (∀ p ∈ L, p ∉ processed → ∀ q ∈ links p, q ∈ L) ∧
      (∀ p ∈ L, p ∈ processed ∨ ∃ s ∈ subs, Reach links s p)

/-- An environment where nothing fetches and no local file exists. -/
def envNone : CacheEnv := ⟨fun _ => none, fun _ => false, fun _ => none⟩

/-- Environment for the concrete cache scenarios: every fetch succeeds
with no content-type header, nothing is a local file. -/
def envPlain : CacheEnv := ⟨fun _ => some ⟨none⟩, fun _ => false, fun _ => none⟩

/-- The two-page cycle used in the witness: A links to B, B back to A. -/
def cycleLinks : String → List String :=
  fun s => if s = "A" then ["B"] else if s = "B" then ["A"] else []

/-! # Shared lemmas -/

theorem char_toNat_ofNat {n : Nat} (h : n < 55296) : (Char.ofNat n).toNat = n := by
  unfold Char.ofNat
  split
  · rfl
  · rename_i hval
    exact absurd (Or.inl h) hval

theorem char_toNat_inj {c d : Char} (h : c.toNat = d.toNat) : c = d :=
  Char.eq_of_val_eq (UInt32.ext h)

theorem lowerChar_idem (c : Char) : lowerChar (lowerChar c) = lowerChar c := by
  unfold lowerChar
  by_cases h : 65 ≤ c.toNat ∧ c.toNat ≤ 90
  · rw [if_pos h]
    have hv : c.toNat + 32 < 55296 := by omega
    rw [if_neg]
    rw [char_toNat_ofNat hv]
    omega
  · rw [if_neg h, if_neg h]

theorem lowerChars_idem (l : List Char) : lowerChars (lowerChars l) = lowerChars l := by
  unfold lowerChars
  rw [List.map_map]
  exact List.map_congr_left fun c _ => lowerChar_idem c

/-- Lowercasing the key first does not change the matching test of
`get_page_config` (because the test lowercases the key itself). -/
theorem keyMatch_lower (k token : String) :
    keyMatch (pyLower k) token = keyMatch k token := by
  unfold keyMatch pyLower
  rw [show (⟨lowerChars k.data⟩ : String).data = lowerChars k.data from rfl]
  rw [lowerChars_idem]

theorem listStarts_refl_append (xs ys : List Char) : listStarts xs (xs ++ ys) = true := by
  induction xs with
  | nil => rfl
  | cons a as ih => simp [listStarts, ih]

theorem not_mem_head {c a : Char} {as : List Char} (h : c ∉ a :: as) : ¬ a = c :=
  fun hac => h (by rw [hac]; exact List.mem_cons_self c as)

theorem not_mem_tail {c a : Char} {as : List Char} (h : c ∉ a :: as) : c ∉ as :=
  fun hm => h (List.mem_cons_of_mem a hm)

theorem splitAtFirst_not_mem {c : Char} {l : List Char} (h : c ∉ l) :
    splitAtFirst c l = none := by
  induction l with
  | nil => rfl
  | cons a as ih =>
    simp only [splitAtFirst]
    rw [if_neg (not_mem_head h), ih (not_mem_tail h)]

theorem splitAtFirst_append {c : Char} (xs ys : List Char) (h : c ∉ xs) :
    splitAtFirst c (xs ++ c :: ys) = some (xs, ys) := by
  induction xs with
  | nil => simp [splitAtFirst]
  | cons a as ih =>
    rw [List.cons_append]
    simp only [splitAtFirst]
    rw [if_neg (not_mem_head h), ih (not_mem_tail h)]

theorem takeUntilAny_append {ds : List Char} (xs : List Char) {d : Char} (ys : List Char)
    (hx : ∀ a ∈ xs, ds.contains a = false) (hd : ds.contains d = true) :
    takeUntilAny ds (xs ++ d :: ys) = (xs, d :: ys) := by
  induction xs with
  | nil =>
    simp only [List.nil_append, takeUntilAny]
    rw [if_pos hd]
  | cons a as ih =>
    rw [List.cons_append]
    simp only [takeUntilAny]
    rw [if_neg (by rw [hx a (List.mem_cons_self a as)]; exact Bool.false_ne_true)]
    rw [ih (fun b hb => hx b (List.mem_cons_of_mem a hb))]

theorem splitChar_no_sep {sep : Char} {l : List Char} (h : sep ∉ l) :
    splitChar sep l = [l] := by
  induction l with
  | nil => rfl
  | cons a as ih =>
    simp only [splitChar]
    rw [ih (not_mem_tail h)]
    simp only [if_neg (not_mem_head h)]

theorem splitChar_ne_nil (sep : Char) (l : List Char) : splitChar sep l ≠ [] := by
  cases l with
  | nil => simp [splitChar]
  | cons a as =>
    simp only [splitChar]
    cases h : splitChar sep as with
    | nil => simp
    | cons g gs =>
      by_cases hc : a = sep
      · simp [hc]
      · simp [hc]

theorem splitChar_append (sep : Char) (xs ys : List Char) (h : sep ∉ ys) :
    splitChar sep (xs ++ sep :: ys) = splitChar sep xs ++ [ys] := by
  induction xs with
  | nil =>
    rw [List.nil_append]
    simp only [splitChar]
    rw [splitChar_no_sep h]
    simp [splitChar]
  | cons a as ih =>
    rw [List.cons_append]
    simp only [splitChar]
    rw [ih]
    cases hs : splitChar sep as with
    | nil => exact absurd hs (splitChar_ne_nil sep as)
    | cons g gs =>
      by_cases hc : a = sep
      · simp [hc]
      · simp [hc]

theorem joinChar_cons_head (sep c : Char) (g : List Char) (gs : List (List Char)) :
    joinChar sep ((c :: g) :: gs) = c :: joinChar sep (g :: gs) := by
  cases gs with
  | nil => rfl
  | cons g2 gs2 => rfl

theorem joinChar_splitChar (sep : Char) (l : List Char) :
    joinChar sep (splitChar sep l) = l := by
  induction l with
  | nil => rfl
  | cons c rest ih =>
    simp only [splitChar]
    cases hs : splitChar sep rest with
    | nil => exact absurd hs (splitChar_ne_nil sep rest)
    | cons g gs =>
      rw [hs] at ih
      by_cases hc : c = sep
      · show joinChar sep (if c = sep then [] :: g :: gs else (c :: g) :: gs) = c :: rest
        rw [if_pos hc]
        show sep :: joinChar sep (g :: gs) = c :: rest
        rw [ih, hc]
      · show joinChar sep (if c = sep then [] :: g :: gs else (c :: g) :: gs) = c :: rest
        rw [if_neg hc]
        rw [joinChar_cons_head, ih]

theorem dropWhile_of_not_mem {c : Char} {l : List Char} (h : c ∉ l) :
    l.dropWhile (· = c) = l := by
  cases l with
  | nil => rfl
  | cons a as =>
    rw [List.dropWhile_cons, if_neg]
    simp only [decide_eq_true_eq]
    exact fun hac => h (hac ▸ List.mem_cons_self a as)

theorem stripChar_of_not_mem {c : Char} {l : List Char} (h : c ∉ l) :
    stripChar c l = l := by
  unfold stripChar
  rw [dropWhile_of_not_mem h]
  rw [dropWhile_of_not_mem (by simpa using h)]
  exact l.reverse_reverse

theorem stripChar_cons (c : Char) (l : List Char) :
    stripChar c (c :: l) = stripChar c l := by
  unfold stripChar
  rw [List.dropWhile_cons, if_pos (by simp)]

/-! Lemmas computing `pyUrlsplit` on the two URL shapes the slug
claims are about. -/

theorem splitScheme_https (r : List Char) :
    splitScheme (("https").data ++ ':' :: r) = (("https").data, r) := by
  unfold splitScheme
  rw [splitAtFirst_append _ r (by decide)]
  rfl

/-- Variant of `splitScheme_https` in the cons-flattened shape that
`simp` normalises URL data to. -/
theorem splitScheme_https_cons (y : List Char) :
    splitScheme ('h' :: 't' :: 't' :: 'p' :: 's' :: ':' :: '/' :: '/' :: y)
      = (("https").data, '/' :: '/' :: y) :=
  splitScheme_https ('/' :: '/' :: y)

theorem pyUrlsplit_plainPath (host p : List Char)
    (hh : ∀ a ∈ host, ¬(a = '/' ∨ a = '?' ∨ a = '#'))
    (hp1 : '#' ∉ p) (hp2 : '?' ∉ p) :
    pyUrlsplit ⟨("https://").data ++ host ++ '/' :: p⟩ =
      ⟨"https", ⟨host⟩, ⟨'/' :: p⟩, "", ""⟩ := by
  have he : (⟨("https://").data ++ host ++ '/' :: p⟩ : String).data
      = ("https").data ++ ':' :: ('/' :: '/' :: (host ++ '/' :: p)) := by
    simp
  have hstart : listStarts ['/', '/'] ('/' :: '/' :: (host ++ '/' :: p)) = true :=
    listStarts_refl_append ['/', '/'] (host ++ '/' :: p)
  have hdrop : List.drop 2 ('/' :: '/' :: (host ++ '/' :: p)) = host ++ '/' :: p := rfl
  have hnet : takeUntilAny ['/', '?', '#'] (host ++ '/' :: p) = (host, '/' :: p) := by
    apply takeUntilAny_append host p _ (by decide)
    intro a ha
    have hna := hh a ha
    simp only [not_or] at hna
    simp [hna.1, hna.2.1, hna.2.2]
  have hfrag : splitAtFirst '#' ('/' :: p) = none :=
    splitAtFirst_not_mem (by
      intro hm
      rcases List.mem_cons.mp hm with h | h
      · exact absurd h (by decide)
      · exact hp1 h)
  have hquery : splitAtFirst '?' ('/' :: p) = none :=
    splitAtFirst_not_mem (by
      intro hm
      rcases List.mem_cons.mp hm with h | h
      · exact absurd h (by decide)
      · exact hp2 h)
  simp only [pyUrlsplit, List.append_assoc, List.cons_append, List.nil_append,
    splitScheme_https_cons, hstart, eq_self_iff_true, if_true, hdrop, hnet, hfrag, hquery]

theorem pyUrlsplit_query (host p q : List Char)
    (hh : ∀ a ∈ host, ¬(a = '/' ∨ a = '?' ∨ a = '#'))
    (hp1 : '#' ∉ p) (hp2 : '?' ∉ p) (hq : '#' ∉ q) :
    pyUrlsplit ⟨("https://").data ++ host ++ '/' :: (p ++ '?' :: q)⟩ =
      ⟨"https", ⟨host⟩, ⟨'/' :: p⟩, ⟨q⟩, ""⟩ := by
  have he : (⟨("https://").data ++ host ++ '/' :: (p ++ '?' :: q)⟩ : String).data
      = ("https").data ++ ':' :: ('/' :: '/' :: (host ++ '/' :: (p ++ '?' :: q))) := by
    simp
  have hstart : listStarts ['/', '/'] ('/' :: '/' :: (host ++ '/' :: (p ++ '?' :: q))) = true :=
    listStarts_refl_append ['/', '/'] (host ++ '/' :: (p ++ '?' :: q))
  have hdrop : List.drop 2 ('/' :: '/' :: (host ++ '/' :: (p ++ '?' :: q)))
      = host ++ '/' :: (p ++ '?' :: q) := rfl
  have hnet : takeUntilAny ['/', '?', '#'] (host ++ '/' :: (p ++ '?' :: q))
      = (host, '/' :: (p ++ '?' :: q)) := by
    apply takeUntilAny_append host _ _ (by decide)
    intro a ha
    have hna := hh a ha
    simp only [not_or] at hna
    simp [hna.1, hna.2.1, hna.2.2]
  have hfrag : splitAtFirst '#' ('/' :: (p ++ '?' :: q)) = none :=
    splitAtFirst_not_mem (by
      intro hm
      rcases List.mem_cons.mp hm with h | hm2
      · exact absurd h (by decide)
      · rcases List.mem_append.mp hm2 with h | h
        · exact hp1 h
        · rcases List.mem_cons.mp h with h | h
          · exact absurd h (by decide)
          · exact hq h)
  have hsp : ('/' :: (p ++ '?' :: q)) = ('/' :: p) ++ '?' :: q := by simp
  have hquery : splitAtFirst '?' ('/' :: (p ++ '?' :: q)) = some ('/' :: p, q) := by
    rw [hsp]
    exact splitAtFirst_append _ q (by
      intro hm
      rcases List.mem_cons.mp hm with h | h
      · exact absurd h (by decide)
      · exact hp2 h)
  simp only [pyUrlsplit, List.append_assoc, List.cons_append, List.nil_append,
    splitScheme_https_cons, hstart, eq_self_iff_true, if_true, hdrop, hnet, hfrag, hquery]

/-! # Claim C3 — slug derivation -/

theorem siteEffective_noSlug {site : List (String × CVal)}
    (h : site.lookup ("slug") = none) : siteEffective site = site := by
  unfold siteEffective
  rw [h]

theorem getPageConfig_noPages {cfg : SiteCfg} (h : cfg.pages = []) (token : String) :
    getPageConfig cfg token = siteEffective cfg.site := by
  unfold getPageConfig
  rw [h]
  rfl

/-- Computation of the slug fallback on a `title-id` shaped path. -/
theorem defaultSlug_titleId (host title hexid : List Char)
    (hh : ∀ a ∈ host, ¬(a = '/' ∨ a = '?' ∨ a = '#'))
    (ht : ∀ a ∈ title, ¬(a = '/' ∨ a = '?' ∨ a = '#'))
    (hx : ∀ a ∈ hexid, ¬(a = '/' ∨ a = '?' ∨ a = '#' ∨ a = '-')) :
    defaultSlug ⟨("https://").data ++ host ++ '/' :: (title ++ '-' :: hexid)⟩ true
      = (⟨lowerChars title⟩ : String) ++ ".html" := by
  have hp1 : '#' ∉ title ++ '-' :: hexid := by
    intro hm
    rcases List.mem_append.mp hm with h | h
    · exact (ht _ h) (Or.inr (Or.inr rfl))
    · rcases List.mem_cons.mp h with h | h
      · exact absurd h (by decide)
      · exact (hx _ h) (Or.inr (Or.inr (Or.inl rfl)))
  have hp2 : '?' ∉ title ++ '-' :: hexid := by
    intro hm
    rcases List.mem_append.mp hm with h | h
    · exact (ht _ h) (Or.inr (Or.inl rfl))
    · rcases List.mem_cons.mp h with h | h
      · exact absurd h (by decide)
      · exact (hx _ h) (Or.inr (Or.inl rfl))
  have hsplit := pyUrlsplit_plainPath host (title ++ '-' :: hexid) hh hp1 hp2
  have hslash : '/' ∉ title ++ '-' :: hexid := by
    intro hm
    rcases List.mem_append.mp hm with h | h
    · exact (ht _ h) (Or.inl rfl)
    · rcases List.mem_cons.mp h with h | h
      · exact absurd h (by decide)
      · exact (hx _ h) (Or.inl rfl)
  have hstrip : stripChar '/' ('/' :: (title ++ '-' :: hexid)) = title ++ '-' :: hexid := by
    rw [stripChar_cons, stripChar_of_not_mem hslash]
  have hdash : (title ++ '-' :: hexid).contains '-' = true :=
    List.elem_eq_true_of_mem (List.mem_append.mpr (Or.inr (List.mem_cons_self _ _)))
  have hsp : splitChar '-' (title ++ '-' :: hexid) = splitChar '-' title ++ [hexid] :=
    splitChar_append '-' title hexid (fun hm => (hx _ hm) (Or.inr (Or.inr (Or.inr rfl))))
  have hlen : decide ((splitChar '-' (title ++ '-' :: hexid)).length > 1) = true := by
    apply decide_eq_true
    rw [hsp, List.length_append]
    have := List.length_pos.mpr (splitChar_ne_nil '-' title)
    simp only [List.length_cons, List.length_nil]
    omega
  unfold defaultSlug
  rw [hsplit]
  show (⟨if (stripChar '/' ('/' :: (title ++ '-' :: hexid))).contains '-'
        && decide ((splitChar '-' (stripChar '/' ('/' :: (title ++ '-' :: hexid)))).length > 1)
      then lowerChars (joinChar '-'
        ((splitChar '-' (stripChar '/' ('/' :: (title ++ '-' :: hexid)))).dropLast))
      else if (stripChar '/' ('/' :: (title ++ '-' :: hexid))).contains '?'
      then lowerChars ((splitChar '?' (stripChar '/' ('/' :: (title ++ '-' :: hexid)))).headD [])
      else stripChar '/' ('/' :: (title ++ '-' :: hexid))⟩ : String)
      ++ (if true then ".html" else "") = (⟨lowerChars title⟩ : String) ++ ".html"
  rw [hstrip, hdash, hlen, hsp]
  simp only [Bool.and_self, if_true, List.dropLast_concat, joinChar_splitChar]

/-- Computation of the slug fallback on a bare-identifier path with a
query string: the query is gone (dropped by `urlparse`) but nothing is
lowercased, because the `elif so-called query branch` never runs. -/
theorem defaultSlug_identQuery (host ident qs : List Char)
    (hh : ∀ a ∈ host, ¬(a = '/' ∨ a = '?' ∨ a = '#'))
    (hi : ∀ a ∈ ident, ¬(a = '/' ∨ a = '?' ∨ a = '#' ∨ a = '-'))
    (hq : '#' ∉ qs) :
    defaultSlug ⟨("https://").data ++ host ++ '/' :: (ident ++ '?' :: qs)⟩ true
      = (⟨ident⟩ : String) ++ ".html" := by
  have hp1 : '#' ∉ ident := fun hm => (hi _ hm) (Or.inr (Or.inr (Or.inl rfl)))
  have hp2 : '?' ∉ ident := fun hm => (hi _ hm) (Or.inr (Or.inl rfl))
  have hsplit := pyUrlsplit_query host ident qs hh hp1 hp2 hq
  have hslash : '/' ∉ ident := fun hm => (hi _ hm) (Or.inl rfl)
  have hstrip : stripChar '/' ('/' :: ident) = ident := by
    rw [stripChar_cons, stripChar_of_not_mem hslash]
  have hdash : ident.contains '-' = false := by
    simp only [List.contains_eq_any_beq, List.any_eq_false]
    intro a ha
    simpa using fun had => (hi _ ha) (Or.inr (Or.inr (Or.inr had.symm)))
  have hques : ident.contains '?' = false := by
    simp only [List.contains_eq_any_beq, List.any_eq_false]
    intro a ha
    simpa using fun had => (hi _ ha) (Or.inr (Or.inl had.symm))
  unfold defaultSlug
  rw [hsplit]
  show (⟨if (stripChar '/' ('/' :: ident)).contains '-'
        && decide ((splitChar '-' (stripChar '/' ('/' :: ident))).length > 1)
      then lowerChars (joinChar '-' ((splitChar '-' (stripChar '/' ('/' :: ident))).dropLast))
      else if (stripChar '/' ('/' :: ident)).contains '?'
      then lowerChars ((splitChar '?' (stripChar '/' ('/' :: ident))).headD [])
      else stripChar '/' ('/' :: ident)⟩ : String)
      ++ (if true then ".html" else "") = (⟨ident⟩ : String) ++ ".html"
  rw [hstrip, hdash, hques]
  simp only [Bool.false_and, if_false, Bool.false_eq_true, if_true]

/-- Claim C3, counterexample.  The claim says the slug of a
bare-identifier URL with a query string is the *lowercased* identifier.
In the code the query string is already removed from `.path` by
`urlparse`, so the `elif so-called query branch` of `get_page_slug` (lines
140–143) — the only place that lowercases a bare identifier — never
runs, and the identifier keeps its case. -/
theorem get_page_slug_query_counterexample :
    getPageSlug ⟨[], []⟩ ("https://domain.notion.site/ABCdef123?v=123") true
      = "ABCdef123.html" ∧
    ("ABCdef123.html" : String) ≠ ("abcdef123.html" : String) :=
  ⟨rfl, by decide⟩

/-- Claim C3, amended: with no custom slug configured, a URL whose path
is `the-page-title-<id>` (the id dash-free) derives the slug
`the-page-title.html` lowercased; a URL whose path is a bare identifier
followed by a query string derives the identifier itself — the query
string is dropped (by `urlparse`), but the identifier is *not*
lowercased. -/
theorem get_page_slug_shapes (cfg : SiteCfg) (host title hexid ident qs : List Char)
    (hcfg : cfg.pages = []) (hslug : cfg.site.lookup ("slug") = none)
    (hh : ∀ a ∈ host, ¬(a = '/' ∨ a = '?' ∨ a = '#'))
    (ht : ∀ a ∈ title, ¬(a = '/' ∨ a = '?' ∨ a = '#'))
    (hx : ∀ a ∈ hexid, ¬(a = '/' ∨ a = '?' ∨ a = '#' ∨ a = '-'))
    (hi : ∀ a ∈ ident, ¬(a = '/' ∨ a = '?' ∨ a = '#' ∨ a = '-'))
    (hq : '#' ∉ qs) :
    getPageSlug cfg ⟨("https://").data ++ host ++ '/' :: (title ++ '-' :: hexid)⟩ true
      = (⟨lowerChars title⟩ : String) ++ ".html" ∧
    getPageSlug cfg ⟨("https://").data ++ host ++ '/' :: (ident ++ '?' :: qs)⟩ true
      = (⟨ident⟩ : String) ++ ".html" := by
  have hlook : ∀ url : String, (getPageConfig cfg url).lookup ("slug") = none := by
    intro url
    rw [getPageConfig_noPages hcfg, siteEffective_noSlug hslug, hslug]
  constructor
  · unfold getPageSlug
    rw [hlook]
    exact defaultSlug_titleId host title hexid hh ht hx
  · unfold getPageSlug
    rw [hlook]
    exact defaultSlug_identQuery host ident qs hh hi hq

/-- Witness for `get_page_slug_shapes` on concrete URLs. -/
theorem get_page_slug_shapes_witness :
    getPageSlug ⟨[], []⟩
        ⟨("https://").data ++ ("d.notion.site").data
          ++ '/' :: (("The-Page").data ++ '-' :: ("abc123DEF").data)⟩ true
      = (⟨lowerChars ("The-Page").data⟩ : String) ++ ".html" ∧
    getPageSlug ⟨[], []⟩
        ⟨("https://").data ++ ("d.notion.site").data
          ++ '/' :: (("ABCdef123").data ++ '?' :: ("v=123").data)⟩ true
      = (⟨("ABCdef123").data⟩ : String) ++ ".html" :=
  get_page_slug_shapes ⟨[], []⟩ _ _ _ _ _ rfl rfl (by decide) (by decide) (by decide)
    (by decide) (by decide)

/-! # Claim C5 — config resolution precedence -/

theorem string_eq_of_data {s t : String} (h : s.data = t.data) : s = t := by
  cases s
  cases t
  exact congrArg String.mk (by simpa using h)

theorem lookup_cons_self (k : String) (v : CVal) (l : List (String × CVal)) :
    List.lookup k ((k, v) :: l) = some v := by
  simp [List.lookup]

theorem lookup_map_override (b : List (String × CVal)) (k : String) :
    ∀ a : List (String × CVal),
      (a.map (fun kv => (kv.1, (b.lookup kv.1).getD kv.2))).lookup k
        = (a.lookup k).map (fun v => (b.lookup k).getD v) := by
  intro a
  induction a with
  | nil => rfl
  | cons kv rest ih =>
    obtain ⟨k1, v1⟩ := kv
    simp only [List.map_cons, List.lookup]
    cases hbe : k == k1 with
    | true =>
      have hk : k = k1 := eq_of_beq hbe
      rw [hk]
      rfl
    | false => exact ih

theorem lookup_append_cases (l1 l2 : List (String × CVal)) (k : String) :
    (l1 ++ l2).lookup k
      = match l1.lookup k with
        | some v => some v
        | none => l2.lookup k := by
  induction l1 with
  | nil => rfl
  | cons kv rest ih =>
    obtain ⟨k1, v1⟩ := kv
    rw [List.cons_append]
    simp only [List.lookup]
    cases hbe : k == k1 with
    | true => rfl
    | false => exact ih

theorem lookup_filter_unclaimed (a : List (String × CVal)) (k : String)
    (hnone : a.lookup k = none) :
    ∀ b : List (String × CVal),
      (b.filter (fun kv => (a.lookup kv.1).isNone)).lookup k = b.lookup k := by
  intro b
  induction b with
  | nil => rfl
  | cons kv rest ih =>
    obtain ⟨k2, v2⟩ := kv
    rw [List.filter_cons]
    cases hbe : k == k2 with
    | true =>
      have hk : k = k2 := eq_of_beq hbe
      rw [← hk, hnone]
      simp only [Option.isNone_none, if_true]
      simp [List.lookup, ← hk]
    | false =>
      by_cases hp : (a.lookup k2).isNone = true
      · rw [if_pos hp]
        simp only [List.lookup, hbe]
        exact ih
      · rw [if_neg hp]
        rw [ih]
        simp [List.lookup, hbe]

/-- Lookup through a Python dict merge: the overriding table wins,
otherwise the base table answers. -/
theorem dictMerge_lookup (a b : List (String × CVal)) (k : String) :
    (dictMerge a b).lookup k
      = match a.lookup k with
        | some v => some ((b.lookup k).getD v)
        | none => b.lookup k := by
  unfold dictMerge
  rw [lookup_append_cases, lookup_map_override]
  cases h : a.lookup k with
  | some v => simp
  | none =>
    simp only [Option.map_none]
    exact lookup_filter_unclaimed a k h b

/-- Claim C5: when the site table sets a value for a key and exactly one
per-page table matches the URL and sets that key, `get_page_config`
resolves to the per-page value; when no per-page table matches, it
returns the site table unchanged (here stated for site tables without
the invalid `slug` entry, which lines 92–97 would strip first). -/
theorem get_page_config_precedence (cfg : SiteCfg) (token1 token2 k pk : String)
    (pt : List (String × CVal)) (x y : CVal)
    (hslug : cfg.site.lookup ("slug") = none)
    (hone : cfg.pages.filter (fun kv => keyMatch kv.1 token1) = [(pk, CVal.tbl pt)])
    (hx : cfg.site.lookup k = some x)
    (hy : pt.lookup k = some y)
    (hzero : cfg.pages.filter (fun kv => keyMatch kv.1 token2) = []) :
    (getPageConfig cfg token1).lookup k = some y ∧
    getPageConfig cfg token2 = cfg.site := by
  constructor
  · unfold getPageConfig
    rw [hone, siteEffective_noSlug hslug]
    show (dictMerge cfg.site pt).lookup k = some y
    rw [dictMerge_lookup, hx, hy]
    rfl
  · unfold getPageConfig
    rw [hzero, siteEffective_noSlug hslug]
    rfl

/-- Witness for `get_page_config_precedence`: a site font overridden by
one matching page table, and a URL matching no page table. -/
theorem get_page_config_precedence_witness :
    (getPageConfig
        ⟨[("fonts", CVal.tbl [("site", CVal.s "Roboto")])],
         [("mypage", CVal.tbl [("fonts", CVal.tbl [("site", CVal.s "Lora")])])]⟩
        ("https://x.notion.site/mypage-abc123")).lookup ("fonts")
      = some (CVal.tbl [("site", CVal.s "Lora")]) ∧
    getPageConfig
        ⟨[("fonts", CVal.tbl [("site", CVal.s "Roboto")])],
         [("mypage", CVal.tbl [("fonts", CVal.tbl [("site", CVal.s "Lora")])])]⟩
        ("https://x.notion.site/otherpage") =
      [("fonts", CVal.tbl [("site", CVal.s "Roboto")])] :=
  get_page_config_precedence _ _ _ _ _ _
    (CVal.tbl [("site", CVal.s "Roboto")]) (CVal.tbl [("site", CVal.s "Lora")])
    rfl rfl rfl rfl rfl

/-! # Claim C4 — width-sensitivity of the implicit cache key -/

theorem char_toNat_lt (c : Char) : c.toNat < 16777216 := by
  have h := c.valid
  have hc : c.toNat = c.val.toNat := rfl
  rcases h with h | h
  · omega
  · omega

theorem hexWord_inj {m n : Nat} (hm : m < 16777216) (hn : n < 16777216)
    (h : hexWord m = hexWord n) : m = n := by
  have hd : ∀ a < 16, ∀ b < 16, Nat.digitChar a = Nat.digitChar b → a = b := by decide
  unfold hexWord hexNibble at h
  injection h with e5 h
  injection h with e4 h
  injection h with e3 h
  injection h with e2 h
  injection h with e1 h
  injection h with e0 h
  have g5 := hd _ (Nat.mod_lt _ (by omega)) _ (Nat.mod_lt _ (by omega)) e5
  have g4 := hd _ (Nat.mod_lt _ (by omega)) _ (Nat.mod_lt _ (by omega)) e4
  have g3 := hd _ (Nat.mod_lt _ (by omega)) _ (Nat.mod_lt _ (by omega)) e3
  have g2 := hd _ (Nat.mod_lt _ (by omega)) _ (Nat.mod_lt _ (by omega)) e2
  have g1 := hd _ (Nat.mod_lt _ (by omega)) _ (Nat.mod_lt _ (by omega)) e1
  have g0 := hd _ (Nat.mod_lt _ (by omega)) _ (Nat.mod_lt _ (by omega)) e0
  omega

theorem flatMap_hexWord_inj : ∀ l1 l2 : List Char,
    (l1.flatMap fun c => hexWord c.toNat) = (l2.flatMap fun c => hexWord c.toNat) →
    l1 = l2 := by
  intro l1
  induction l1 with
  | nil =>
    intro l2 h
    cases l2 with
    | nil => rfl
    | cons b bs => simp [hexWord] at h
  | cons a as ih =>
    intro l2 h
    cases l2 with
    | nil => simp [hexWord] at h
    | cons b bs =>
      simp only [List.flatMap_cons] at h
      have hlen : (hexWord a.toNat).length = (hexWord b.toNat).length := rfl
      obtain ⟨hhead, htail⟩ := List.append_inj h hlen
      have hab : a = b :=
        char_toNat_inj (hexWord_inj (char_toNat_lt a) (char_toNat_lt b) hhead)
      rw [hab, ih bs htail]

/-- The digest standing in for SHA-1 is injective (the absence of hash
collisions that the cache keying relies on). -/
theorem sha1hex_inj {s t : String} (h : sha1hex s = sha1hex t) : s = t := by
  unfold sha1hex at h
  injection h with h
  exact string_eq_of_data (flatMap_hexWord_inj s.data t.data h)

/-- Injectivity of the rendered singleton width list. -/
theorem pyListRepr_singleton_inj {v1 v2 : List Char}
    (h : pyListRepr [v1] = pyListRepr [v2]) : v1 = v2 := by
  unfold pyListRepr joinChars at h
  simp only [List.map_cons, List.map_nil] at h
  have h1 := List.append_cancel_right h
  injection h1 with h2 h3
  injection h3 with h4 h5
  exact List.append_cancel_right h5

/-- Claim C4: two references identical except for the query string get
distinct implicit cache keys when they carry different `width` values,
and the same cache key when their `width` lists agree — every other
query parameter is ignored by the key. -/
theorem cache_key_width_sensitivity
    (u1 u2 u3 u4 sc1 sc2 sc3 sc4 nl pa nl2 pa2 q1 q2 q3 q4 fr1 fr2 fr3 fr4 : String)
    (v1 v2 : List Char)
    (h1 : pyUrlsplit u1 = ⟨sc1, nl, pa, q1, fr1⟩)
    (h2 : pyUrlsplit u2 = ⟨sc2, nl, pa, q2, fr2⟩)
    (h3 : pyUrlsplit u3 = ⟨sc3, nl2, pa2, q3, fr3⟩)
    (h4 : pyUrlsplit u4 = ⟨sc4, nl2, pa2, q4, fr4⟩)
    (hw1 : parseQsGet q1.data (("width").data) = [v1])
    (hw2 : parseQsGet q2.data (("width").data) = [v2])
    (hne : v1 ≠ v2)
    (hw34 : parseQsGet q3.data (("width").data) = parseQsGet q4.data (("width").data)) :
    cacheFileName u1 none ≠ cacheFileName u2 none ∧
    cacheFileName u3 none = cacheFileName u4 none := by
  constructor
  · intro heq
    have hks : cacheKeySource u1 = cacheKeySource u2 := sha1hex_inj heq
    unfold cacheKeySource at hks
    rw [h1, h2] at hks
    simp only [hw1, hw2, List.isEmpty_cons, Bool.not_false, if_true] at hks
    have hdata := congrArg String.data hks
    simp only [String.data_append, List.append_assoc] at hdata
    have h5 := List.append_cancel_left hdata
    have h6 := List.append_cancel_left h5
    have h7 := List.append_cancel_left h6
    exact hne (pyListRepr_singleton_inj h7)
  · show sha1hex (cacheKeySource u3) = sha1hex (cacheKeySource u4)
    congr 1
    unfold cacheKeySource
    rw [h3, h4]
    simp only [hw34]

/-- Witness for `cache_key_width_sensitivity`: the same image URL with
widths 100 and 200 keys twice; with the same width and different cache
busters it keys once. -/
theorem cache_key_width_sensitivity_witness :
    cacheFileName ("https://www.notion.so/image/abc?width=100&cache=v2") none ≠
      cacheFileName ("https://www.notion.so/image/abc?width=200&cache=v2") none ∧
    cacheFileName ("https://www.notion.so/image/abc?width=100&cache=v2") none =
      cacheFileName ("https://www.notion.so/image/abc?width=100&cache=v9") none :=
  cache_key_width_sensitivity _ _ _ _ _ _ _ _ _ _ _ _ _ _ _ _ _ _ _ _
    (("100").data) (("200").data) rfl rfl rfl rfl rfl rfl (by decide) rfl

/-! # Evaluation lemmas for `cache_file` -/

theorem pySfxSplit_no_dot {l : List Char} (h : '.' ∉ l) : pySfxSplit l = (l, []) := by
  unfold pySfxSplit
  rw [splitAtFirst_not_mem (by simpa using h)]

theorem pySfxSplit_concat (st e : List Char) (hst : st ≠ []) (he1 : e ≠ [])
    (he : '.' ∉ e) : pySfxSplit (st ++ '.' :: e) = (st, '.' :: e) := by
  unfold pySfxSplit
  have hrev : (st ++ '.' :: e).reverse = e.reverse ++ '.' :: st.reverse := by simp
  rw [hrev, splitAtFirst_append _ _ (by simpa using he)]
  show (if (st.reverse.isEmpty || e.reverse.isEmpty) = true
      then (st ++ '.' :: e, ([] : List Char))
      else (st.reverse.reverse, '.' :: e.reverse.reverse)) = (st, '.' :: e)
  rw [if_neg (by simp [hst, he1])]
  simp

/-- First-call evaluation: a cache hit returns the first matching file
and does no I/O. -/
theorem cacheFile_hit {env : CacheEnv} {files : List String} {url : String}
    {fn : Option String} {m : String} {ms : List String}
    (hm : files.filter (globStemHit (cacheFileName url fn)) = m :: ms) :
    cacheFile env files url fn = ⟨.relPath m, files, 0, 0⟩ := by
  simp [cacheFile, hm]

/-- First-call evaluation: a cache miss on a network reference that
fetches successfully downloads once and records the destination. -/
theorem cacheFile_download {env : CacheEnv} {files : List String} {url : String}
    {fn : Option String} {resp : FetchResponse}
    (hm : files.filter (globStemHit (cacheFileName url fn)) = [])
    (hscheme : pyIn ("http") (pyUrlsplit url).scheme = true)
    (hfetch : env.fetch url = some resp) :
    cacheFile env files url fn =
      ⟨.relPath (downloadDest env url (cacheFileName url fn) resp),
       files ++ [downloadDest env url (cacheFileName url fn) resp], 1, 0⟩ := by
  simp [cacheFile, hm, hscheme, hfetch]

/-- First-call evaluation: a failed fetch echoes the reference. -/
theorem cacheFile_fetch_fail {env : CacheEnv} {files : List String} {url : String}
    {fn : Option String}
    (hm : files.filter (globStemHit (cacheFileName url fn)) = [])
    (hscheme : pyIn ("http") (pyUrlsplit url).scheme = true)
    (hfetch : env.fetch url = none) :
    cacheFile env files url fn = ⟨.original url, files, 1, 0⟩ := by
  simp [cacheFile, hm, hscheme, hfetch]

/-- First-call evaluation: a miss with no network scheme and no local
file falls off the end of the function. -/
theorem cacheFile_nothing_eval {env : CacheEnv} {files : List String} {url : String}
    {fn : Option String}
    (hm : files.filter (globStemHit (cacheFileName url fn)) = [])
    (hscheme : pyIn ("http") (pyUrlsplit url).scheme = false)
    (hlocal : env.isLocalFile url = false) :
    cacheFile env files url fn = ⟨.nothing, files, 0, 0⟩ := by
  simp [cacheFile, hm, hscheme, hlocal]

/-- First-call evaluation: a cache miss on an existing local file copies
it under the derived name with the file extension preserved. -/
theorem cacheFile_local {env : CacheEnv} {files : List String} {url : String}
    {fn : Option String}
    (hm : files.filter (globStemHit (cacheFileName url fn)) = [])
    (hscheme : pyIn ("http") (pyUrlsplit url).scheme = false)
    (hlocal : env.isLocalFile url = true) :
    cacheFile env files url fn =
      ⟨.relPath (withSfx (cacheFileName url fn) (pathSfx (lastComponent url))),
       files ++ [withSfx (cacheFileName url fn) (pathSfx (lastComponent url))], 0, 1⟩ := by
  simp [cacheFile, hm, hscheme, hlocal]

/-! # Claim C9 — explicit filenames are matched on the stem only -/

/-- Claim C9: two `cache_file` calls with explicit filenames that share
a stem but differ in extension (`font.woff`, then `font.woff2`) collide
in the `destination.with_suffix(".*")` glob: the second call performs
no fetch or copy and returns the file materialized by the first call,
although the two references are distinct. -/
theorem cache_file_stem_collision (env : CacheEnv) (files : List String)
    (u1 u2 : String) (st e1 e2 : List Char) (resp : FetchResponse)
    (hne : u1 ≠ u2)
    (hst : st ≠ []) (he1 : e1 ≠ []) (hd1 : '.' ∉ e1) (he2 : e2 ≠ []) (hd2 : '.' ∉ e2)
    (hmiss : files.filter (globStemHit ⟨st ++ '.' :: e1⟩) = [])
    (hscheme : pyIn ("http") (pyUrlsplit u1).scheme = true)
    (hfetch : env.fetch u1 = some resp) :
    cacheFile env files u1 (some ⟨st ++ '.' :: e1⟩)
      = ⟨.relPath ⟨st ++ '.' :: e1⟩, files ++ [⟨st ++ '.' :: e1⟩], 1, 0⟩ ∧
    cacheFile env (files ++ [⟨st ++ '.' :: e1⟩]) u2 (some ⟨st ++ '.' :: e2⟩)
      = ⟨.relPath ⟨st ++ '.' :: e1⟩, files ++ [⟨st ++ '.' :: e1⟩], 0, 0⟩ := by
  have hname1 : cacheFileName u1 (some ⟨st ++ '.' :: e1⟩) = ⟨st ++ '.' :: e1⟩ := rfl
  have hsfx1 : pathSfx (⟨st ++ '.' :: e1⟩ : String) = ⟨'.' :: e1⟩ := by
    unfold pathSfx
    rw [show (⟨st ++ '.' :: e1⟩ : String).data = st ++ '.' :: e1 from rfl]
    rw [pySfxSplit_concat st e1 hst he1 hd1]
  constructor
  · rw [@cacheFile_download env files u1 (some ⟨st ++ '.' :: e1⟩) resp hmiss hscheme hfetch]
    have hdest : downloadDest env u1 (cacheFileName u1 (some ⟨st ++ '.' :: e1⟩)) resp
        = ⟨st ++ '.' :: e1⟩ := by
      unfold downloadDest
      rw [hname1, hsfx1,
        if_neg (by intro hc; exact List.noConfusion (congrArg String.data hc))]
    rw [hdest]
  · have hpred : globStemHit (cacheFileName u2 (some ⟨st ++ '.' :: e2⟩))
        = globStemHit ⟨st ++ '.' :: e1⟩ := by
      funext f
      unfold globStemHit cacheFileName
      rw [show (⟨st ++ '.' :: e2⟩ : String).data = st ++ '.' :: e2 from rfl]
      rw [show (⟨st ++ '.' :: e1⟩ : String).data = st ++ '.' :: e1 from rfl]
      rw [pySfxSplit_concat st e2 hst he2 hd2, pySfxSplit_concat st e1 hst he1 hd1]
    have hfilter : (files ++ [(⟨st ++ '.' :: e1⟩ : String)]).filter
        (globStemHit (cacheFileName u2 (some ⟨st ++ '.' :: e2⟩)))
        = [(⟨st ++ '.' :: e1⟩ : String)] := by
      rw [hpred, List.filter_append, hmiss, List.nil_append]
      have hsh : globStemHit ⟨st ++ '.' :: e1⟩ (⟨st ++ '.' :: e1⟩ : String) = true := by
        unfold globStemHit
        rw [show (⟨st ++ '.' :: e1⟩ : String).data = st ++ '.' :: e1 from rfl]
        rw [pySfxSplit_concat st e1 hst he1 hd1]
        rw [show st ++ '.' :: e1 = (st ++ ['.']) ++ e1 from by simp]
        exact listStarts_refl_append (st ++ ['.']) e1
      simp [List.filter_cons, List.filter_nil, hsh]
    exact cacheFile_hit hfilter

/-- Witness for `cache_file_stem_collision`: `font.woff` then
`font.woff2`. -/
theorem cache_file_stem_collision_witness :
    cacheFile envPlain [] ("https://www.notion.so/f1") (some ⟨("font").data ++ '.' :: ("woff").data⟩)
      = ⟨.relPath ⟨("font").data ++ '.' :: ("woff").data⟩,
         [⟨("font").data ++ '.' :: ("woff").data⟩], 1, 0⟩ ∧
    cacheFile envPlain [⟨("font").data ++ '.' :: ("woff").data⟩] ("https://www.notion.so/f2")
        (some ⟨("font").data ++ '.' :: ("woff2").data⟩)
      = ⟨.relPath ⟨("font").data ++ '.' :: ("woff").data⟩,
         [⟨("font").data ++ '.' :: ("woff").data⟩], 0, 0⟩ :=
  cache_file_stem_collision envPlain [] _ _ (("font").data) (("woff").data) (("woff2").data)
    ⟨none⟩ (by decide) (by decide) (by decide) (by decide) (by decide) (by decide)
    rfl (by decide) rfl

/-! # Claim C1 — at-most-one fetch per reference -/

set_option maxRecDepth 40000 in
/-- Claim C1, counterexample.  The claim says a second `cache_file`
call on the same reference never downloads again.  When no extension
can be inferred (no suffix in the URL path, no content-type header) the
file is written without an extension, and the `{key}.*` glob of the
cache-hit test (line 164) cannot match an extensionless file — so the
second call downloads the same reference again (while returning the
same relative path). -/
theorem cache_file_repeat_download_counterexample :
    (cacheFile envPlain
        (cacheFile envPlain [] ("http://example.com/data") none).files
        ("http://example.com/data") none).downloads = 1 ∧
    (cacheFile envPlain
        (cacheFile envPlain [] ("http://example.com/data") none).files
        ("http://example.com/data") none).result
      = (cacheFile envPlain [] ("http://example.com/data") none).result := by
  exact ⟨rfl, rfl⟩

/-- Claim C1, amended: calling `cache_file` twice with the same
reference performs the fetch/copy at most once *provided* the first
call returned a relative path whose file name still matches the
`{key}.*` glob pattern (that is, an extension could be attached); the
second call then finds the materialized file, returns the same relative
path, and performs no download or copy. -/
theorem cache_file_second_call_cached (env : CacheEnv) (files : List String)
    (url : String) (fn : Option String) (d : String)
    (hres : (cacheFile env files url fn).result = .relPath d)
    (hhit : globStemHit (cacheFileName url fn) d = true) :
    cacheFile env (cacheFile env files url fn).files url fn
      = ⟨.relPath d, (cacheFile env files url fn).files, 0, 0⟩ := by
  cases hm : files.filter (globStemHit (cacheFileName url fn)) with
  | cons m ms =>
    have ho1 := @cacheFile_hit env files url fn m ms hm
    rw [ho1] at hres ⊢
    have hd : m = d := by
      simpa using hres
    rw [hd] at hm
    rw [cacheFile_hit hm, hd]
  | nil =>
    by_cases hscheme : pyIn ("http") (pyUrlsplit url).scheme = true
    · cases hfetch : env.fetch url with
      | none =>
        rw [cacheFile_fetch_fail hm hscheme hfetch] at hres
        exact absurd hres (by simp)
      | some resp =>
        have ho1 := @cacheFile_download env files url fn resp hm hscheme hfetch
        rw [ho1] at hres ⊢
        have hd : downloadDest env url (cacheFileName url fn) resp = d := by
          simpa using hres
        rw [hd]
        have hfilter : (files ++ [d]).filter (globStemHit (cacheFileName url fn))
            = [d] := by
          rw [List.filter_append, hm, List.nil_append]
          simp [List.filter_cons, hhit]
        exact cacheFile_hit hfilter
    · have hs : pyIn ("http") (pyUrlsplit url).scheme = false :=
        Bool.not_eq_true _ ▸ Bool.of_not_eq_true hscheme
      by_cases hlocal : env.isLocalFile url = true
      · have ho1 := @cacheFile_local env files url fn hm hs hlocal
        rw [ho1] at hres ⊢
        have hd : withSfx (cacheFileName url fn) (pathSfx (lastComponent url)) = d := by
          simpa using hres
        rw [hd]
        have hfilter : (files ++ [d]).filter (globStemHit (cacheFileName url fn))
            = [d] := by
          rw [List.filter_append, hm, List.nil_append]
          simp [List.filter_cons, hhit]
        exact cacheFile_hit hfilter
      · have hl : env.isLocalFile url = false :=
          Bool.not_eq_true _ ▸ Bool.of_not_eq_true hlocal
        rw [cacheFile_nothing_eval hm hs hl] at hres
        exact absurd hres (by simp)

set_option maxRecDepth 40000 in
/-- Witness for `cache_file_second_call_cached`: a stylesheet URL whose
`.css` extension is inferred from the path; the second call is free. -/
theorem cache_file_second_call_cached_witness :
    cacheFile envPlain
        (cacheFile envPlain [] ("https://www.notion.so/app.css") none).files
        ("https://www.notion.so/app.css") none
      = ⟨.relPath (withSfx (cacheFileName ("https://www.notion.so/app.css") none) (".css")),
         (cacheFile envPlain [] ("https://www.notion.so/app.css") none).files, 0, 0⟩ :=
  cache_file_second_call_cached envPlain [] ("https://www.notion.so/app.css") none
    (withSfx (cacheFileName ("https://www.notion.so/app.css") none) (".css"))
    rfl (by decide)

/-! # Claim C10 — the shared `exclude=[]` default accumulator -/

theorem openTogglesPass_sub (page : TogglePage) (opened l : List String) :
    opened ⊆ openTogglesPass page opened l := by
  induction l generalizing opened with
  | nil => exact fun x hx => hx
  | cons tb rest ih =>
    unfold openTogglesPass
    by_cases h1 : opened.contains tb
    · rw [if_pos h1]
      exact ih opened
    · rw [if_neg h1]
      by_cases h2 : page.isOpen tb
      · rw [if_pos h2]
        exact ih opened
      · rw [if_neg h2]
        exact fun x hx => ih (opened ++ [tb]) (List.mem_append.mpr (Or.inl hx))

theorem openTogglesPass_mem (page : TogglePage) (t : String) (l : List String)
    (ht : t ∈ l) (hopen : page.isOpen t = false) :
    ∀ opened : List String, t ∈ openTogglesPass page opened l := by
  induction l with
  | nil => exact absurd ht (List.not_mem_nil t)
  | cons tb rest ih =>
    intro opened
    unfold openTogglesPass
    rcases List.mem_cons.mp ht with he | hrest
    · by_cases h1 : opened.contains tb
      · rw [if_pos h1]
        refine openTogglesPass_sub page opened rest ?_
        rw [he]
        simpa using h1
      · rw [if_neg h1]
        have h2 : page.isOpen tb = false := he ▸ hopen
        rw [h2]
        simp only [Bool.false_eq_true, if_false]
        refine openTogglesPass_sub page (opened ++ [tb]) rest ?_
        rw [he]
        simp
    · by_cases h1 : opened.contains tb
      · rw [if_pos h1]
        exact ih hrest opened
      · rw [if_neg h1]
        by_cases h2 : page.isOpen tb
        · rw [if_pos h2]
          exact ih hrest opened
        · rw [if_neg h2]
          exact ih hrest (opened ++ [tb])

theorem runToggleCalls_sub (pages : List TogglePage) :
    ∀ d : ToggleDefault, d.acc ⊆ (runToggleCalls d pages).acc := by
  induction pages with
  | nil => exact fun d x hx => hx
  | cons p ps ih =>
    intro d x hx
    show x ∈ (runToggleCalls (openTogglesDefaultCall d p) ps).acc
    exact ih (openTogglesDefaultCall d p)
      (openTogglesPass_sub p d.acc p.toggles hx)

/-- Claim C10: the `exclude=[]` default of `open_toggle_blocks` is one
list object for the whole process.  Every toggle opened while
processing one page stays in the accumulator observed by the
default-argument call of every later page, so successive calls are not
independent functions of their own arguments. -/
theorem toggle_default_accumulator_shared (d0 : ToggleDefault) (p1 : TogglePage)
    (rest : List TogglePage) (t : String)
    (ht : t ∈ p1.toggles) (hopen : p1.isOpen t = false) :
    t ∈ (openTogglesDefaultCall d0 p1).acc ∧
    t ∈ (runToggleCalls (openTogglesDefaultCall d0 p1) rest).acc := by
  have h1 : t ∈ (openTogglesDefaultCall d0 p1).acc :=
    openTogglesPass_mem p1 t p1.toggles ht hopen d0.acc
  exact ⟨h1, runToggleCalls_sub rest (openTogglesDefaultCall d0 p1) h1⟩

/-- Witness for `toggle_default_accumulator_shared`: a toggle opened on
the first page is still excluded two pages later. -/
theorem toggle_default_accumulator_shared_witness :
    ("t1" : String) ∈ (openTogglesDefaultCall ⟨[]⟩ ⟨["t1", "t2"], fun _ => false⟩).acc ∧
    ("t1" : String) ∈ (runToggleCalls (openTogglesDefaultCall ⟨[]⟩ ⟨["t1", "t2"], fun _ => false⟩)
      [⟨["t3"], fun _ => false⟩]).acc :=
  toggle_default_accumulator_shared ⟨[]⟩ ⟨["t1", "t2"], fun _ => false⟩
    [⟨["t3"], fun _ => false⟩] ("t1") (by decide) rfl

/-! # Claim C6 — anchor handling in `find_subpages` -/

theorem listHas_singleton_of_mem {c : Char} {l : List Char} (h : c ∈ l) :
    listHas [c] l = true := by
  induction l with
  | nil => exact absurd h (List.not_mem_nil c)
  | cons a as ih =>
    unfold listHas
    rcases List.mem_cons.mp h with he | hm
    · simp [listStarts, he]
    · simp [ih hm]

/-- Claim C6: (a) a followed same-domain anchor whose resolved target
carries a fragment is rewritten to the bare fragment link and tagged,
and is not enqueued when its fragment-stripped target is already in the
visited registry or in the current discovery batch; (b) an anchor
outside the `notion-scroller` content region is processed exactly as if
link-following were enabled — in particular it is never stripped to a
span — even when the page sets `no-links`. -/
theorem anchor_fragment_and_topnav (ctx : SubpageCtx) (subs : List String)
    (a : Anchor) (target frag : String)
    (hsub : resolveHref ctx.hrefDomain a.href = target ++ "#" ++ frag)
    (hdom : pyStarts ctx.hrefDomain (target ++ "#" ++ frag) = true)
    (htf : '#' ∉ target.data) (hff : '#' ∉ frag.data)
    (hfollow : ctx.parseLinks = true ∨ a.inScroller = false)
    (hvisited : (ctx.processed.contains target || subs.contains target) = true) :
    processAnchor ctx subs a
      = (.link ("#" ++ frag) (a.classes ++ ["loconotion-anchor-link"]), subs) ∧
    (∀ ctx2 : SubpageCtx, ∀ a2 : Anchor, a2.inScroller = false →
      (processAnchor ctx2 subs a2).1 ≠ .stripped a2.classes ∧
      processAnchor ctx2 subs a2
        = processAnchor ⟨ctx2.cfg, ctx2.hrefDomain, ctx2.indexUrl,
            ctx2.extensionInLinks, true, ctx2.processed⟩ subs a2) := by
  constructor
  · have hdata : (target ++ "#" ++ frag).data = target.data ++ '#' :: frag.data := by
      simp [String.data_append]
    have hhash : pyIn ("#") (target ++ "#" ++ frag) = true := by
      unfold pyIn
      rw [hdata]
      exact listHas_singleton_of_mem
        (List.mem_append.mpr (Or.inr (List.mem_cons_self _ _)))
    have hsplit : splitChar '#' (target ++ "#" ++ frag).data
        = [target.data, frag.data] := by
      rw [hdata, splitChar_append '#' target.data frag.data hff, splitChar_no_sep htf]
      rfl
    have hcond : (ctx.parseLinks || !a.inScroller) = true := by
      rcases hfollow with h | h
      · simp [h]
      · simp [h]
    unfold processAnchor
    rw [hsub, if_pos hdom, if_pos hcond, if_pos hhash, hsplit]
    simp only [List.headD_cons, List.getLastD_cons]
    rw [show (⟨target.data⟩ : String) = target from by cases target; rfl]
    rw [show ([] : List (List Char)).getLastD frag.data = frag.data from rfl]
    rw [show (⟨frag.data⟩ : String) = frag from by cases frag; rfl]
    rw [if_pos hvisited]
  · intro ctx2 a2 hs2
    have hcond2 : ∀ pl : Bool, (pl || !a2.inScroller) = true := by
      intro pl
      simp [hs2]
    constructor
    · by_cases hd2 : pyStarts ctx2.hrefDomain (resolveHref ctx2.hrefDomain a2.href) = true
      · unfold processAnchor
        rw [if_pos hd2, if_pos (hcond2 ctx2.parseLinks)]
        by_cases hfr : pyIn ("#") (resolveHref ctx2.hrefDomain a2.href) = true
        · rw [if_pos hfr]
          by_cases hv : (ctx2.processed.contains
                (⟨(splitChar '#' (resolveHref ctx2.hrefDomain a2.href).data).headD []⟩ : String)
              || subs.contains
                (⟨(splitChar '#' (resolveHref ctx2.hrefDomain a2.href).data).headD []⟩ : String))
              = true
          · rw [if_pos hv]
            simp
          · rw [if_neg hv]
            simp
        · rw [if_neg hfr]
          simp
      · unfold processAnchor
        rw [if_neg hd2]
        simp
    · unfold processAnchor
      rw [hcond2 ctx2.parseLinks, hcond2 true]

/-- Witness for `anchor_fragment_and_topnav` on the anchor
`/My-Page-abc123#section-2` with its target already visited. -/
theorem anchor_fragment_and_topnav_witness :
    processAnchor
        ⟨⟨[], []⟩, "https://x.notion.site", "https://x.notion.site/index", true, true,
          ["https://x.notion.site/My-Page-abc123"]⟩
        [] ⟨"/My-Page-abc123#section-2", [], true⟩
      = (.link ("#section-2") (([] : List String) ++ ["loconotion-anchor-link"]), []) ∧
    (∀ ctx2 : SubpageCtx, ∀ a2 : Anchor, a2.inScroller = false →
      (processAnchor ctx2 [] a2).1 ≠ .stripped a2.classes ∧
      processAnchor ctx2 [] a2
        = processAnchor ⟨ctx2.cfg, ctx2.hrefDomain, ctx2.indexUrl,
            ctx2.extensionInLinks, true, ctx2.processed⟩ [] a2) :=
  anchor_fragment_and_topnav
    ⟨⟨[], []⟩, "https://x.notion.site", "https://x.notion.site/index", true, true,
      ["https://x.notion.site/My-Page-abc123"]⟩
    [] ⟨"/My-Page-abc123#section-2", [], true⟩
    ("https://x.notion.site/My-Page-abc123") ("section-2")
    (by decide) (by decide) (by decide) (by decide) (Or.inl rfl) (by decide)

/-! # Claim C7 — `cache_file` on an unresolvable reference -/

/-- Claim C7, counterexample.  The claim says that for a reference with
no cached file, no `http` scheme and no existing local file,
`cache_file` returns the reference unchanged.  In fact the
`else: if Path(url).is_file():` branch (lines 201–207) has no `else` of
its own, so the function falls off the end and returns the implicit
Python `None` — not the original reference. -/
theorem cache_file_unresolved_counterexample :
    (cacheFile envNone [] ("assets/missing.css") none).result = CacheResult.nothing ∧
    (cacheFile envNone [] ("assets/missing.css") none).result ≠
      CacheResult.original ("assets/missing.css") := by
  exact ⟨rfl, by decide⟩

/-- Claim C7, amended: for every reference with no cached file yet, no
network scheme and no existing local file, `cache_file` performs no I/O
and returns `None` (not the reference itself). -/
theorem cache_file_unresolved_returns_none (env : CacheEnv) (files : List String)
    (url : String) (fn : Option String)
    (hmiss : files.filter (globStemHit (cacheFileName url fn)) = [])
    (hscheme : pyIn ("http") (pyUrlsplit url).scheme = false)
    (hlocal : env.isLocalFile url = false) :
    cacheFile env files url fn = ⟨.nothing, files, 0, 0⟩ :=
  cacheFile_nothing_eval hmiss hscheme hlocal

/-- Witness for `cache_file_unresolved_returns_none` at a concrete
unresolvable reference. -/
theorem cache_file_unresolved_returns_none_witness :
    cacheFile envNone [] ("assets/other.css") none = ⟨.nothing, [], 0, 0⟩ :=
  cache_file_unresolved_returns_none envNone [] ("assets/other.css") none rfl rfl rfl

/-! # Claim C8 — case sensitivity of the page-config key match -/

/-- Claim C8, counterexample.  The claim says a per-page config key
matches whenever it is a case-insensitive substring of the URL.  The
code lowercases only the key (`key.lower() in token`, line 102), so a
key that differs from a URL substring in the case of URL-side letters
does not match: here `mypage` vs the URL containing `MyPage`, where the
case-insensitive-substring test holds but `get_page_config` leaves the
site table unmerged. -/
theorem get_page_config_url_case_counterexample :
    keyMatch ("mypage") ("https://x.notion.site/MyPage-abc") = false ∧
    listHas (lowerChars ("mypage").data)
      (lowerChars ("https://x.notion.site/MyPage-abc").data) = true ∧
    getPageConfig
      ⟨[("fonts", CVal.s "X")], [("mypage", CVal.tbl [("fonts", CVal.s "Y")])]⟩
      ("https://x.notion.site/MyPage-abc") = [("fonts", CVal.s "X")] := by
  exact ⟨by decide, by decide, rfl⟩

/-- Claim C8, amended: the key is matched by testing whether the
lowercased key is a verbatim substring of the URL, so the match is
case-insensitive on the key side only — lowercasing every page key
first never changes the resolved config, for any URL. -/
theorem get_page_config_key_case_fold (cfg : SiteCfg) (token : String) :
    getPageConfig ⟨cfg.site, cfg.pages.map (fun kv => (pyLower kv.1, kv.2))⟩ token =
      getPageConfig cfg token := by
  unfold getPageConfig
  have h : ∀ ps : List (String × CVal),
      ((ps.map (fun kv => (pyLower kv.1, kv.2))).filter
          (fun kv => keyMatch kv.1 token)).map (fun kv => kv.2)
        = (ps.filter (fun kv => keyMatch kv.1 token)).map (fun kv => kv.2) := by
    intro ps
    induction ps with
    | nil => rfl
    | cons kv rest ih =>
      by_cases hk : keyMatch kv.1 token
      · simp [List.filter_cons, keyMatch_lower, hk, ih]
      · simp [List.filter_cons, keyMatch_lower, hk, ih]
  rw [h cfg.pages]

/-! # Claim C2 — cycle-safe visitation of the page graph -/

theorem nodup_append_singleton {processed : List String} {url : String}
    (hnd : processed.Nodup) (hnp : url ∉ processed) : (processed ++ [url]).Nodup := by
  rw [List.nodup_append]
  exact ⟨hnd, List.nodup_singleton url, fun a ha hb => by
    rcases List.mem_singleton.mp hb with rfl
    exact hnp ha⟩

/-- With zero fuel the preconditions of `PageGood` are contradictory:
there is at least one unvisited page, so the registry is strictly
shorter than the universe. -/
theorem pageGood_zero (links : String → List String) (univ : List String) :
    PageGood links univ 0 := by
  intro url processed hu hnp hnd hsu hfuel
  exfalso
  have hcons : (url :: processed).Nodup := List.nodup_cons.mpr ⟨hnp, hnd⟩
  have hsub : url :: processed ⊆ univ := fun a ha => by
    rcases List.mem_cons.mp ha with rfl | ha
    · exact hu
    · exact hsu ha
  have := (List.Nodup.subperm hcons hsub).length_le
  simp only [List.length_cons] at this
  omega

/-- The `parse_subpages` loop is correct whenever the recursive
`parse_page` calls it makes are. -/
theorem subsGood_of_pageGood (links : String → List String) (univ : List String)
    (fuel : Nat) (hpage : PageGood links univ fuel) : SubsGood links univ fuel := by
  intro subs
  induction subs with
  | nil =>
    intro processed _ hnd hsu _
    refine ⟨processed, rfl, ⟨[], (List.append_nil processed).symm⟩, hnd, hsu,
      fun s hs => absurd hs (List.not_mem_nil s),
      fun p hp hnp => absurd hp hnp,
      fun p hp => Or.inl hp⟩
  | cons s rest ih =>
    intro processed hsubs hnd hsu hfuel
    have hrest : rest ⊆ univ := fun x hx => hsubs (List.mem_cons_of_mem s hx)
    by_cases hmem : s ∈ processed
    · have hcontains : processed.contains s = true := List.elem_eq_true_of_mem hmem
      obtain ⟨L, hL, ⟨t, hpre⟩, hLnd, hLsub, hall, hclo, hsnd⟩ :=
        ih processed hrest hnd hsu hfuel
      refine ⟨L, ?_, ⟨t, hpre⟩, hLnd, hLsub, ?_, hclo, ?_⟩
      · simp only [parseSubsLoop]
        rw [if_pos hcontains]
        exact hL
      · intro x hx
        rcases List.mem_cons.mp hx with rfl | hx
        · rw [hpre]
          exact List.mem_append.mpr (Or.inl hmem)
        · exact hall x hx
      · intro p hp
        rcases hsnd p hp with h | ⟨s2, hs2, hr⟩
        · exact Or.inl h
        · exact Or.inr ⟨s2, List.mem_cons_of_mem s hs2, hr⟩
    · have hcontains : processed.contains s = false := by
        simpa using hmem
      have hsu1 : s ∈ univ := hsubs (List.mem_cons_self s rest)
      obtain ⟨L1, hL1, ⟨t1, hpre1⟩, h1nd, h1sub, h1clo, h1snd⟩ :=
        hpage s processed hsu1 hmem hnd hsu hfuel
      have hlen1 : processed.length + 1 ≤ L1.length := by
        rw [hpre1]
        simp [List.length_append]
      obtain ⟨L2, hL2, ⟨t2, hpre2⟩, h2nd, h2sub, h2all, h2clo, h2snd⟩ :=
        ih L1 hrest h1nd h1sub (by omega)
      have hL1L2 : L1 ⊆ L2 := fun x hx => by
        rw [hpre2]
        exact List.mem_append.mpr (Or.inl hx)
      have hsL1 : s ∈ L1 := by
        rw [hpre1]
        exact List.mem_append.mpr (Or.inr (List.mem_cons_self s t1))
      refine ⟨L2, ?_, ⟨s :: (t1 ++ t2), by rw [hpre2, hpre1]; simp⟩, h2nd, h2sub, ?_, ?_, ?_⟩
      · simp only [parseSubsLoop]
        rw [if_neg (by rw [hcontains]; exact Bool.false_ne_true)]
        have hbeta : parsePage links fuel s processed = some L1 := hL1
        rw [hbeta]
        exact hL2
      · intro x hx
        rcases List.mem_cons.mp hx with rfl | hx
        · exact hL1L2 hsL1
        · exact h2all x hx
      · intro p hp hnp
        by_cases hp1 : p ∈ L1
        · intro q hq
          exact hL1L2 (h1clo p hp1 hnp q hq)
        · exact h2clo p hp hp1
      · intro p hp
        rcases h2snd p hp with h1 | ⟨s2, hs2, hr⟩
        · rcases h1snd p h1 with h | hr
          · exact Or.inl h
          · exact Or.inr ⟨s, List.mem_cons_self s rest, hr⟩
        · exact Or.inr ⟨s2, List.mem_cons_of_mem s hs2, hr⟩

/-- `parse_page` is correct at one more unit of fuel whenever the
subpage loop is correct at the previous amount. -/
theorem pageGood_succ (links : String → List String) (univ : List String)
    (hclosed : ∀ p ∈ univ, ∀ q ∈ links p, q ∈ univ)
    (fuel : Nat) (hsubs : SubsGood links univ fuel) : PageGood links univ (fuel + 1) := by
  intro url processed hu hnp hnd hsu hfuel
  have hnd2 : (processed ++ [url]).Nodup := nodup_append_singleton hnd hnp
  have hsu2 : processed ++ [url] ⊆ univ := fun a ha => by
    rcases List.mem_append.mp ha with ha | ha
    · exact hsu ha
    · rcases List.mem_singleton.mp ha with rfl
      exact hu
  have hfuel2 : univ.length ≤ fuel + (processed ++ [url]).length := by
    simp only [List.length_append, List.length_cons, List.length_nil]
    omega
  obtain ⟨L, hL, ⟨t, hpre⟩, hLnd, hLsub, hall, hclo, hsnd⟩ :=
    hsubs (links url) (processed ++ [url]) (fun q hq => hclosed url hu q hq)
      hnd2 hsu2 hfuel2
  refine ⟨L, hL, ⟨t, by rw [hpre]; simp⟩, hLnd, hLsub, ?_, ?_⟩
  · intro p hp hnpr
    by_cases hpu : p = url
    · subst hpu
      exact fun q hq => hall q hq
    · refine hclo p hp ?_
      intro hmem
      rcases List.mem_append.mp hmem with h | h
      · exact hnpr h
      · exact hpu (List.mem_singleton.mp h)
  · intro p hp
    rcases hsnd p hp with h | ⟨s, hs, hr⟩
    · rcases List.mem_append.mp h with h | h
      · exact Or.inl h
      · rcases List.mem_singleton.mp h with rfl
        exact Or.inr (Reach.refl p)
    · exact Or.inr (Reach.step hs hr)

theorem pageGood_all (links : String → List String) (univ : List String)
    (hclosed : ∀ p ∈ univ, ∀ q ∈ links p, q ∈ univ) :
    ∀ fuel, PageGood links univ fuel := by
  intro fuel
  induction fuel with
  | zero => exact pageGood_zero links univ
  | succ n ih =>
    exact pageGood_succ links univ hclosed n (subsGood_of_pageGood links univ n ih)

/-- Claim C2: on every finite, link-closed page universe — cycles
included — the crawl driven by `parse_page` from an empty registry
terminates within `|universe|` recursion depth, never parses or exports
a registered page twice (the export list is duplicate-free), and
exports exactly the pages reachable from the entry URL, each exactly
once. -/
theorem crawl_visits_each_page_exactly_once (links : String → List String)
    (univ : List String) (entry : String)
    (hnd : univ.Nodup) (he : entry ∈ univ)
    (hclosed : ∀ p ∈ univ, ∀ q ∈ links p, q ∈ univ) :
    ∃ L, parsePage links univ.length entry [] = some L ∧ L.Nodup ∧
      (∀ p, Reach links entry p → L.count p = 1) ∧
      (∀ p, ¬ Reach links entry p → L.count p = 0) := by
  obtain ⟨L, hL, ⟨t, hpre⟩, hLnd, hLsub, hclo, hsnd⟩ :=
    pageGood_all links univ hclosed univ.length entry []
      he (List.not_mem_nil entry) List.nodup_nil (List.nil_subset univ) (by simp)
  have hentry : entry ∈ L := by
    rw [hpre]
    exact List.mem_cons_self entry t
  have hstep : ∀ u w, Reach links u w → u ∈ L → w ∈ L := by
    intro u w hr
    induction hr with
    | refl v => exact id
    | step hv _ ih =>
      intro hu
      exact ih (hclo _ hu (List.not_mem_nil _) _ hv)
  have hmem : ∀ p, p ∈ L ↔ Reach links entry p := by
    intro p
    constructor
    · intro hp
      rcases hsnd p hp with h | h
      · exact absurd h (List.not_mem_nil p)
      · exact h
    · intro hr
      exact hstep entry p hr hentry
  refine ⟨L, hL, hLnd, ?_, ?_⟩
  · intro p hr
    exact List.count_eq_one_of_mem hLnd ((hmem p).mpr hr)
  · intro p hr
    exact List.count_eq_zero_of_not_mem (fun hp => hr ((hmem p).mp hp))

/-- Witness for `crawl_visits_each_page_exactly_once` on the two-page
cycle: the crawl terminates and exports A and B once each. -/
theorem crawl_visits_each_page_exactly_once_witness :
    ∃ L, parsePage cycleLinks (["A", "B"].length) ("A") [] = some L ∧ L.Nodup ∧
      (∀ p, Reach cycleLinks ("A") p → L.count p = 1) ∧
      (∀ p, ¬ Reach cycleLinks ("A") p → L.count p = 0) :=
  crawl_visits_each_page_exactly_once cycleLinks ["A", "B"] ("A")
    (by decide) (by decide) (by decide)

end Loconotion

